import Mathlib

/-!
Verification of the image-captioning web app core (`src/app.py`).

The embedding below translates the pure core of the program:
  * the filename classifier (`list_images`, `pattern_for`, `validate_images`),
  * the serial allocator and renamer (`highest_serial`, `rename_invalids_to_valid`),
  * the annotation store operations on the captions/landmarks relations
    (add caption, delete caption, landmark upsert, `ensure_csv`),
  * the filter engine (`build_filters`, `apply_filters`).

Conventions of the embedding:
  * a directory is a `List String` of file names;
  * a persisted tabular relation is a `List (String × Option String)`:
    each row pairs an image name with a cell, where `none` models a
    missing/NaN cell as produced by the CSV reader;
  * Python strings are modelled as Lean `String`s, with character classes
    (digits, alphanumerics, whitespace, lowercasing) modelled over ASCII,
    which covers every character the program's own grammar produces;
  * CSV (de)serialisation itself is treated as a primitive (the spec
    excludes it as an external collaborator), so files hold relations.
-/

/-- The allow-list of image extensions (`IMG_EXTS` in `app.py`). -/
def IMG_EXTS : List String := [".png", ".jpg", ".jpeg", ".bmp", ".gif", ".tiff"]

/-- `f.lower().endswith(IMG_EXTS)`: the lowercased name ends with one of the
allowed extensions.  Python's `str.lower` is modelled by ASCII lowercasing. -/
def hasImageExt (f : String) : Bool :=
  IMG_EXTS.any (fun e => e.data.isSuffixOf (f.data.map Char.toLower))

/-- Lexicographic (code-point) comparison of character lists, the order
Python `sorted` uses on strings. -/
def charsLe : List Char → List Char → Bool
  | [], _ => true
  | _ :: _, [] => false
  | a :: as, b :: bs => if a < b then true else if b < a then false else charsLe as bs

/-- Lexicographic comparison of strings by code points. -/
def strLe (a b : String) : Bool :=
  charsLe a.data b.data

/-- `strLe` as a relation, for use with `List.insertionSort`. -/
def strLeP (a b : String) : Prop :=
  strLe a b = true

instance : DecidableRel strLeP :=
  fun a b => inferInstanceAs (Decidable (strLe a b = true))

theorem charsLe_iff_not_lex (as bs : List Char) :
    charsLe as bs = true ↔ ¬ List.Lex (· < ·) bs as := by
  induction as generalizing bs with
  | nil =>
    cases bs <;> simp [charsLe]
  | cons a as ih =>
    cases bs with
    | nil =>
      simp only [charsLe, Bool.false_eq_true, false_iff, not_not]
      exact List.Lex.nil
    | cons b bs =>
      simp only [charsLe]
      rcases lt_trichotomy a b with hab | hab | hab
      · simp only [if_pos hab, true_iff]
        intro h
        cases h with
        | cons h => exact absurd hab (lt_irrefl _)
        | rel h => exact absurd hab (asymm h)
      · subst hab
        simp only [if_neg (lt_irrefl a), ih bs]
        constructor
        · intro h hl
          cases hl with
          | cons hl => exact h hl
          | rel hl => exact absurd hl (lt_irrefl _)
        · intro h hl
          exact h (List.Lex.cons hl)
      · simp only [if_neg (asymm hab), if_pos hab, Bool.false_eq_true, false_iff, not_not]
        exact List.Lex.rel hab

theorem strLeP_iff_le (a b : String) : strLeP a b ↔ a ≤ b := by
  rw [strLeP, strLe, charsLe_iff_not_lex, ← not_lt]
  rw [String.lt_iff_toList_lt]
  exact Iff.rfl

instance : IsTotal String strLeP :=
  ⟨fun a b => by
    rw [strLeP_iff_le, strLeP_iff_le]
    exact le_total a b⟩

instance : IsTrans String strLeP :=
  ⟨fun a b c hab hbc => by
    rw [strLeP_iff_le] at *
    exact le_trans hab hbc⟩

/-- Python `sorted` on a list of strings. -/
def sortedStr (l : List String) : List String :=
  List.insertionSort strLeP l

/-- `list_images(folder)`: the extension-filtered directory listing in
lexicographic (code-point) sort order, as produced by Python `sorted`. -/
def list_images (folder : List String) : List String :=
  sortedStr (folder.filter hasImageExt)

/-- Remove a literal leading character sequence: `some r` when `cs = p ++ r`,
`none` when `cs` does not start with `p`.  This models matching the literal
part `image_<re.escape(shortname)>_` of the compiled pattern. -/
def dropLit : List Char → List Char → Option (List Char)
  | [], cs => some cs
  | _ :: _, [] => none
  | p :: ps, c :: cs => if c = p then dropLit ps cs else none

/-- After the literal part of the pattern, the remainder must be one or
more decimal digits, then `.`, then one or more alphanumeric characters
(`(\d+)\.[A-Za-z0-9]+` to the end).  Greedy matching of `\d+` needs no
backtracking here because a digit is never `.`. -/
def matchTail (r : List Char) : Bool :=
  let d := r.takeWhile Char.isDigit
  let rest := r.dropWhile Char.isDigit
  !d.isEmpty && decide (rest.head? = some '.') &&
    !rest.tail.isEmpty && rest.tail.all Char.isAlphanum

/-- The body of `pattern_for(shortname)` applied to a character list:
the input must be the literal `image_<shortname>_` followed by a match of
`matchTail` (`^image_{re.escape(shortname)}_(\d+)\.[A-Za-z0-9]+$`). -/
def matchCore (sn : String) (cs : List Char) : Bool :=
  match dropLit ("image_".data ++ sn.data ++ "_".data) cs with
  | none => false
  | some r => matchTail r

/-- `pattern_for(shortname).match(f)`: Python's `$` matches at the end of the
string or just before a single trailing newline, so the pattern also accepts
a canonical name followed by one final `\n`. -/
def pyMatch (sn : String) (f : String) : Bool :=
  matchCore sn f.data ||
    (f.data.getLast? = some '\n' && matchCore sn f.data.dropLast)

/-- `validate_images(folder, shortname)`: partition the sorted listing into
(valids, invalids, all), appending each file to one of the two lists in
listing order. -/
def validate_images (folder : List String) (sn : String) :
    List String × List String × List String :=
  let imgs := list_images folder
  let p := imgs.partition (pyMatch sn)
  (p.1, p.2, imgs)

/-- Value of a decimal digit group, as `int` reads it. -/
def digitsVal (ds : List Char) : Nat :=
  ds.foldl (fun n c => 10 * n + (c.toNat - 48)) 0

/-- Leftmost match of `re.search(r"_(\d+)\.", name)` on a character list:
scan left to right for `_` followed by one or more digits followed by `.`,
returning the digit group's value. -/
def serialScan : List Char → Option Nat
  | [] => none
  | c :: cs =>
    if c = '_' then
      let d := cs.takeWhile Char.isDigit
      match cs.dropWhile Char.isDigit with
      | '.' :: _ => if d.isEmpty then serialScan cs else some (digitsVal d)
      | _ => serialScan cs
    else serialScan cs

/-- The serial extracted from a file name: the digit group of the first
occurrence of `_<digits>.` in the name, if any. -/
def serialOf (name : String) : Option Nat :=
  serialScan name.data

/-- `highest_serial(valid_images)`: `max(nums) if nums else 0`, where `nums`
collects the serials; over `Nat`, both cases are `foldl max 0`. -/
def highest_serial (valid_images : List String) : Nat :=
  (valid_images.filterMap serialOf).foldl Nat.max 0

/-- `os.path.splitext(p)[1]` for a bare file name: everything from the last
dot on, unless every character before that dot is itself a dot (so names
like `.bashrc` have no extension). -/
def extname (p : String) : String :=
  match (p.data.enum.filter (fun ic => ic.2 = '.')).getLast? with
  | none => ""
  | some ic =>
    if (p.data.take ic.1).any (fun c => c ≠ '.') then ⟨p.data.drop ic.1⟩ else ""

/-- The renaming loop of `rename_invalids_to_valid`: starting from serial
`n`, pair each invalid file with its canonical new name, incrementing the
serial after every file. -/
def renameFrom (sn : String) : Nat → List String → List (String × String)
  | _, [] => []
  | n, f :: fs =>
    (f, "image_" ++ sn ++ "_" ++ toString n ++ extname f) :: renameFrom sn (n + 1) fs

/-- `rename_invalids_to_valid(folder, shortname, valid, invalid)`: the
returned (old name, new name) mapping; serials start at
`highest_serial valid + 1`. -/
def rename_invalids_to_valid (sn : String) (valid invalid : List String) :
    List (String × String) :=
  renameFrom sn (highest_serial valid + 1) invalid

/-- A cell of a persisted relation; `none` models a missing/NaN cell. -/
abbrev Cell := Option String

/-- A persisted tabular relation: rows of (image_name, cell). -/
abbrev Table := List (String × Cell)

/-- `str(cell)` after the `pd.isna` guard: a missing cell reads as `""`. -/
def cellStr : Cell → String
  | none => ""
  | some s => s

/-- The "Add caption" write (`df_caps.loc[len(df_caps)] = {...}`): append one
row unconditionally at the end of the captions relation. -/
def add_caption (t : Table) (img cap : String) : Table :=
  t ++ [(img, some cap)]

/-- The caption delete
(`df_caps[~((df_caps["image_name"] == img) & (df_caps["caption"] == c))]`):
keep exactly the rows that do not match both fields. -/
def delete_caption (t : Table) (img cap : String) : Table :=
  t.filter (fun r => !(decide (r.1 = img) && decide (r.2 = some cap)))

/-- The "Save Landmark" write: if some row has this image name, overwrite the
landmark cell of every such row in place
(`df_land.loc[df_land["image_name"] == img, "landmark"] = text`); otherwise
append one new row (`df_land.loc[len(df_land)] = {...}`). -/
def upsert_landmark (t : Table) (img text : String) : Table :=
  if t.any (fun r => decide (r.1 = img)) then
    t.map (fun r => if r.1 = img then (r.1, some text) else r)
  else
    t ++ [(img, some text)]

/-- `captions_map(df)` read through `.get(img, [])`: the ordered captions of
one image, with a missing/NaN cell converted to `""` and the row kept. -/
def captions_map (t : Table) (img : String) : List String :=
  (t.filter (fun r => decide (r.1 = img))).map (fun r => cellStr r.2)

/-- `landmarks_map(df)` read through `.get(img, "")`: the loop `m[img] = lm`
keeps the last row for each image; an absent image reads as `""`. -/
def landmarks_map (t : Table) (img : String) : String :=
  match (t.filter (fun r => decide (r.1 = img))).getLast? with
  | none => ""
  | some r => cellStr r.2

/-- Python `str.isspace()` for a single character: exactly CPython's
whitespace code points (`Py_UNICODE_ISSPACE`): U+0009-U+000D
(`\t\n\v\f\r`), U+001C-U+001F, the space U+0020, U+0085, U+00A0,
U+1680, U+2000-U+200A, U+2028, U+2029, U+202F, U+205F and U+3000. -/
def pyIsSpace (c : Char) : Bool :=
  (0x09 ≤ c.toNat && c.toNat ≤ 0x0D) ||
    (0x1C ≤ c.toNat && c.toNat ≤ 0x1F) ||
    c.toNat == 0x20 || c.toNat == 0x85 || c.toNat == 0xA0 ||
    c.toNat == 0x1680 ||
    (0x2000 ≤ c.toNat && c.toNat ≤ 0x200A) ||
    c.toNat == 0x2028 || c.toNat == 0x2029 ||
    c.toNat == 0x202F || c.toNat == 0x205F || c.toNat == 0x3000

/-- Python `str.strip()`: drop leading and trailing characters for which
`str.isspace()` holds. -/
def pyStrip (s : String) : String :=
  ⟨((s.data.dropWhile pyIsSpace).reverse.dropWhile pyIsSpace).reverse⟩

/-- The "Save Landmark" handler body: the persisted text is
`new_landmark.strip()`. -/
def save_landmark_action (t : Table) (img text : String) : Table :=
  upsert_landmark t img (pyStrip text)

/-- The "Add caption" handler body: `if new_cap.strip():` append the stripped
text, else warn and change nothing. -/
def add_caption_action (t : Table) (img text : String) : Table :=
  if pyStrip text ≠ "" then add_caption t img (pyStrip text) else t

/-- A backing CSV file as the store sees it: a column header and the
persisted rows (CSV (de)serialisation is a persistence primitive). -/
structure CsvFile where
  cols : List String
  rows : Table
deriving DecidableEq

/-- `pd.read_csv(path)`: fails (`none`) when the file is missing, otherwise
returns the persisted relation. -/
def read_csv : Option CsvFile → Option Table
  | none => none
  | some f => some f.rows

/-- `ensure_csv(path, cols)`: if the file does not exist, first create it
with the column header and an empty body, then read it back.  Returns the
table read and the resulting file state. -/
def ensure_csv (cols : List String) (file : Option CsvFile) :
    Option (Table × Option CsvFile) :=
  let file' := if file.isNone then some ⟨cols, []⟩ else file
  (read_csv file').map (fun t => (t, file'))

/-- The captions file header (`["image_name", "caption"]`). -/
def captionsCols : List String := ["image_name", "caption"]

/-- The landmarks file header (`["image_name", "landmark"]`). -/
def landmarksCols : List String := ["image_name", "landmark"]

/-- The caption counts of the valid images
(`[len(caps_map_full.get(img, [])) for img in valid_images]`) folded with
`max`; over `Nat` this is `max(counts) if counts else 0`. -/
def maxCapCount (valid : List String) (caps : String → List String) : Nat :=
  (valid.map (fun img => (caps img).length)).foldl Nat.max 0

/-- `build_filters(valid_images, caps_map_full, landmarks_full)`: the caption
count options `0..max_count` and the landmark options, `"Any"` followed by
the sorted distinct non-empty landmark values of the valid images
(`["Any"] + sorted(landmark_set)`). -/
def build_filters (valid : List String) (caps : String → List String)
    (lands : String → String) : List Nat × List String :=
  let count_options := List.range (maxCapCount valid caps + 1)
  let landmarkVals := (valid.map lands).filter (fun s => decide (s ≠ ""))
  let landmark_options := "Any" :: sortedStr landmarkVals.dedup
  (count_options, landmark_options)

/-- `apply_filters(...)`: keep each valid image unless its caption count is
outside `[cap_min, cap_max]` or a specific landmark filter does not match
its landmark (the two `continue` tests of the loop). -/
def apply_filters (valid : List String) (caps : String → List String)
    (lands : String → String) (capMin capMax : Nat) (lmFilter : String) :
    List String :=
  valid.filter (fun img =>
    let cnt := (caps img).length
    !(decide (cnt < capMin) || decide (capMax < cnt)) &&
      !(decide (lmFilter ≠ "Any") && decide (lands img ≠ lmFilter)))

/-- Spec-side canonical-name grammar, written from the spec's words: the
name is exactly `image_<shortname>_<digits>.<ext>` with `<digits>` one or
more decimal digits and `<ext>` one or more alphanumeric characters. -/
def canonicalName (sn name : String) : Prop :=
  ∃ d e : List Char,
    name.data = "image_".data ++ sn.data ++ "_".data ++ d ++ '.' :: e ∧
    d ≠ [] ∧ (∀ c ∈ d, c.isDigit = true) ∧
    e ≠ [] ∧ (∀ c ∈ e, c.isAlphanum = true)

/-! ### Helper lemmas -/

theorem base_le_foldl_max (l : List Nat) (a : Nat) : a ≤ l.foldl Nat.max a := by
  induction l generalizing a with
  | nil => exact le_rfl
  | cons h t ih => exact le_trans (Nat.le_max_left a h) (ih (Nat.max a h))

theorem le_foldl_max (l : List Nat) (a : Nat) : ∀ x ∈ l, x ≤ l.foldl Nat.max a := by
  induction l generalizing a with
  | nil => intro x hx; cases hx
  | cons h t ih =>
    intro x hx
    rcases List.mem_cons.mp hx with rfl | hx
    · exact le_trans (Nat.le_max_right a x) (base_le_foldl_max t (Nat.max a x))
    · exact ih (Nat.max a h) x hx

theorem foldl_max_mem (l : List Nat) (a : Nat) :
    l.foldl Nat.max a = a ∨ l.foldl Nat.max a ∈ l := by
  induction l generalizing a with
  | nil => exact Or.inl rfl
  | cons h t ih =>
    rw [List.foldl_cons]
    rcases ih (Nat.max a h) with heq | hmem
    · rw [heq]
      unfold Nat.max
      rw [Nat.max_def]
      split
      · exact Or.inr (List.mem_cons_self _ _)
      · exact Or.inl rfl
    · exact Or.inr (List.mem_cons_of_mem _ hmem)

theorem foldl_max_zero_mem (l : List Nat) (hl : l ≠ []) :
    l.foldl Nat.max 0 ∈ l := by
  rcases foldl_max_mem l 0 with heq | hmem
  · cases l with
    | nil => exact absurd rfl hl
    | cons h t =>
      have hle : h ≤ 0 := heq ▸ le_foldl_max (h :: t) 0 h (List.mem_cons_self _ _)
      have : h = 0 := Nat.le_zero.mp hle
      rw [heq, ← this]
      exact List.mem_cons_self _ _
  · exact hmem

theorem takeWhile_append_front {α : Type} (p : α → Bool) (d : List α) (x : α)
    (ys : List α) (hd : ∀ c ∈ d, p c = true) (hx : p x = false) :
    (d ++ x :: ys).takeWhile p = d ∧ (d ++ x :: ys).dropWhile p = x :: ys := by
  induction d with
  | nil => simp [List.takeWhile_cons, List.dropWhile_cons, hx]
  | cons c d ih =>
    have hc : p c = true := hd c (List.mem_cons_self _ _)
    have hd' : ∀ c' ∈ d, p c' = true := fun c' h => hd c' (List.mem_cons_of_mem _ h)
    simp [List.takeWhile_cons, List.dropWhile_cons, hc, (ih hd').1, (ih hd').2]

theorem dropLit_eq_some_iff (p : List Char) :
    ∀ cs r, dropLit p cs = some r ↔ cs = p ++ r := by
  induction p with
  | nil => intro cs r; simp [dropLit, eq_comm]
  | cons a ps ih =>
    intro cs r
    cases cs with
    | nil => simp [dropLit]
    | cons c cs' =>
      by_cases hca : c = a
      · subst hca
        simp [dropLit, ih]
      · simp [dropLit, hca]

/-- Row overwrite is idempotent and preserves the image-name field. -/
theorem upsert_overwrite_fst (img text : String) (r : String × Cell) :
    (if r.1 = img then (r.1, some text) else r).1 = r.1 := by
  by_cases h : r.1 = img <;> simp [h]

theorem upsert_any_key (t : Table) (img text : String) :
    (upsert_landmark t img text).any (fun r => decide (r.1 = img)) = true := by
  unfold upsert_landmark
  by_cases h : t.any (fun r => decide (r.1 = img)) = true
  · rw [if_pos h]
    rcases List.any_eq_true.mp h with ⟨r, hr, hkey⟩
    refine List.any_eq_true.mpr ⟨_, List.mem_map_of_mem _ hr, ?_⟩
    rw [upsert_overwrite_fst]
    exact hkey
  · rw [if_neg h]
    refine List.any_eq_true.mpr ⟨(img, some text), ?_, by simp⟩
    simp

theorem upsert_countP_key (t : Table) (img text : String) :
    (upsert_landmark t img text).countP (fun r => decide (r.1 = img)) =
      Nat.max (t.countP (fun r => decide (r.1 = img))) 1 := by
  unfold upsert_landmark
  by_cases h : t.any (fun r => decide (r.1 = img)) = true
  · rw [if_pos h, List.countP_map]
    have hcong : ((fun r : String × Cell => decide (r.1 = img)) ∘
        (fun r : String × Cell => if r.1 = img then (r.1, some text) else r)) =
        (fun r : String × Cell => decide (r.1 = img)) := by
      funext r
      simp [Function.comp, upsert_overwrite_fst]
    rw [hcong]
    have hpos : 0 < t.countP (fun r => decide (r.1 = img)) :=
      List.countP_pos_iff.mpr (List.any_eq_true.mp h)
    unfold Nat.max
    rw [Nat.max_def]
    split <;> omega
  · rw [if_neg h]
    have hz : t.countP (fun r => decide (r.1 = img)) = 0 := by
      refine List.countP_eq_zero.mpr ?_
      intro r hr
      have := List.any_eq_false.mp (Bool.eq_false_iff.mpr h) r hr
      exact this
    rw [List.countP_append, hz]
    simp

theorem upsert_key_val (t : Table) (img text : String) :
    ∀ r ∈ upsert_landmark t img text, r.1 = img → r.2 = some text := by
  unfold upsert_landmark
  by_cases h : t.any (fun r => decide (r.1 = img)) = true
  · rw [if_pos h]
    intro r hr hkey
    rcases List.mem_map.mp hr with ⟨r', _, rfl⟩
    by_cases h' : r'.1 = img
    · simp [h']
    · simp [h'] at hkey
  · rw [if_neg h]
    intro r hr hkey
    rcases List.mem_append.mp hr with hrt | hrl
    · have := List.any_eq_false.mp (Bool.eq_false_iff.mpr h) r hrt
      simp [hkey] at this
    · simp at hrl
      rw [hrl]

theorem upsert_other_rows (t : Table) (img text : String) :
    (upsert_landmark t img text).filter (fun r => !decide (r.1 = img)) =
      t.filter (fun r => !decide (r.1 = img)) := by
  unfold upsert_landmark
  by_cases h : t.any (fun r => decide (r.1 = img)) = true
  · rw [if_pos h, List.filter_map]
    have hcong : ((fun r : String × Cell => !decide (r.1 = img)) ∘
        (fun r : String × Cell => if r.1 = img then (r.1, some text) else r)) =
        (fun r : String × Cell => !decide (r.1 = img)) := by
      funext r
      simp [Function.comp, upsert_overwrite_fst]
    rw [hcong]
    refine List.map_congr_left ?_ |>.trans (List.map_id _)
    intro r hr
    have hne : ¬r.1 = img := by
      have := List.mem_filter.mp hr
      simpa using this.2
    simp [hne]
  · rw [if_neg h, List.filter_append]
    simp

theorem upsert_idem (t : Table) (img text : String) :
    upsert_landmark (upsert_landmark t img text) img text =
      upsert_landmark t img text := by
  have hany := upsert_any_key t img text
  conv_lhs => rw [upsert_landmark]
  rw [if_pos hany]
  refine List.map_congr_left ?_ |>.trans (List.map_id _)
  intro r hr
  by_cases hkey : r.1 = img
  · have := upsert_key_val t img text r hr hkey
    rw [if_pos hkey, ← this]
    rfl
  · rw [if_neg hkey]
    rfl

theorem upsert_exists_key (t : Table) (img text : String) :
    ∃ r ∈ upsert_landmark t img text, r.1 = img := by
  rcases List.any_eq_true.mp (upsert_any_key t img text) with ⟨r, hr, hkey⟩
  exact ⟨r, hr, of_decide_eq_true hkey⟩

/-! ### Claim theorems -/

/-- Claim C8: `ensure_csv` (the store's `load`) never fails on a missing
file: a missing file is first created with the given column header and an
empty body and read back as the empty relation; an existing file is read
back unchanged, with the file untouched. -/
theorem ensure_csv_spec (cols : List String) (file : Option CsvFile) :
    (ensure_csv cols file).isSome = true
    ∧ (file = none →
        ensure_csv cols file = some ([], some ⟨cols, []⟩))
    ∧ (∀ f, file = some f →
        ensure_csv cols file = some (f.rows, some f)) := by
  refine ⟨?_, ?_, ?_⟩
  · cases file <;> simp [ensure_csv, read_csv]
  · rintro rfl; simp [ensure_csv, read_csv]
  · rintro f rfl; simp [ensure_csv, read_csv]

/-- Witness for C8: loading the missing captions file creates it with the
captions header and yields the empty relation. -/
theorem ensure_csv_spec_witness :
    ensure_csv captionsCols none = some ([], some ⟨captionsCols, []⟩)
    ∧ ensure_csv landmarksCols (some ⟨landmarksCols, [("img1.png", some "lake")]⟩)
      = some ([("img1.png", some "lake")],
          some ⟨landmarksCols, [("img1.png", some "lake")]⟩) :=
  ⟨(ensure_csv_spec captionsCols none).2.1 rfl,
   (ensure_csv_spec landmarksCols _).2.2 _ rfl⟩

/-- Claim C2 counterexample: when the prior relation already contains the
pair, append followed by delete does not restore the prior row set — delete
removes the pre-existing matching row as well. -/
theorem caption_round_trip_cex :
    delete_caption
        (add_caption [("img1.png", some "hello")] "img1.png" "hello")
        "img1.png" "hello"
      ≠ [("img1.png", some "hello")] := by decide

/-- Claim C2 (amended): append followed by delete of the same pair leaves
exactly the rows of the prior relation that do not match the pair, in their
prior order; in particular it restores the prior relation exactly whenever
the prior relation contains no row equal to the pair.  Append itself adds
one matching row unconditionally. -/
theorem caption_round_trip_amended (t : Table) (img cap : String) :
    (delete_caption (add_caption t img cap) img cap =
        t.filter (fun r => !(decide (r.1 = img) && decide (r.2 = some cap))))
    ∧ ((img, some cap) ∉ t →
        delete_caption (add_caption t img cap) img cap = t)
    ∧ ((add_caption t img cap).countP
        (fun r => decide (r.1 = img) && decide (r.2 = some cap)) =
        t.countP (fun r => decide (r.1 = img) && decide (r.2 = some cap)) + 1)
    ∧ ((delete_caption (add_caption t img cap) img cap).countP
        (fun r => decide (r.1 = img) && decide (r.2 = some cap)) = 0) := by
  have hbase : delete_caption (add_caption t img cap) img cap =
      t.filter (fun r => !(decide (r.1 = img) && decide (r.2 = some cap))) := by
    rw [delete_caption, add_caption, List.filter_append]
    simp
  refine ⟨hbase, ?_, ?_, ?_⟩
  · intro hnmem
    rw [hbase]
    refine List.filter_eq_self.mpr ?_
    intro r hr
    have hne : r ≠ (img, some cap) := fun heq => hnmem (heq ▸ hr)
    have : ¬(r.1 = img ∧ r.2 = some cap) := by
      rintro ⟨h1, h2⟩
      exact hne (Prod.ext h1 h2)
    simp only [Bool.not_eq_true', Bool.and_eq_true, decide_eq_true_eq] at *
    by_cases h1 : r.1 = img
    · simp [h1]
      intro h2
      exact this ⟨h1, h2⟩
    · simp [h1]
  · rw [add_caption, List.countP_append]
    simp
  · rw [hbase, List.countP_eq_zero]
    intro r hr
    have := (List.mem_filter.mp hr).2
    simp only [Bool.not_eq_true'] at this
    simp [this]

/-- Witness for C2 (amended): on a prior relation not containing the pair,
appending `("img1.png", "hello")` and deleting it restores the prior
relation exactly. -/
theorem caption_round_trip_amended_witness :
    delete_caption
        (add_caption [("img2.png", some "other")] "img1.png" "hello")
        "img1.png" "hello"
      = [("img2.png", some "other")] :=
  (caption_round_trip_amended [("img2.png", some "other")] "img1.png" "hello").2.1
    (by decide)

/-- Claim C3 counterexample: on a prior relation holding two rows for the
image, the upsert overwrites both rows and keeps both, so more than one row
for the image remains after the call. -/
theorem landmark_upsert_cex :
    (upsert_landmark [("img1.png", some "a"), ("img1.png", some "b")]
        "img1.png" "lake").countP (fun r => decide (r.1 = "img1.png")) ≠ 1 := by
  decide

/-- Claim C3 (amended): on a prior relation with at most one row for the
image — the store's own invariant — the upsert leaves exactly one row for
the image; in general every row for the image is overwritten with the text
(a new row is appended only when none exists), rows of other images are
untouched, and the upsert is idempotent under repetition. -/
theorem landmark_upsert_amended (t : Table) (img text : String) :
    (t.countP (fun r => decide (r.1 = img)) ≤ 1 →
        (upsert_landmark t img text).countP (fun r => decide (r.1 = img)) = 1)
    ∧ (∀ r ∈ upsert_landmark t img text, r.1 = img → r.2 = some text)
    ∧ ((upsert_landmark t img text).filter (fun r => !decide (r.1 = img)) =
        t.filter (fun r => !decide (r.1 = img)))
    ∧ (upsert_landmark (upsert_landmark t img text) img text =
        upsert_landmark t img text) := by
  refine ⟨?_, upsert_key_val t img text, upsert_other_rows t img text,
    upsert_idem t img text⟩
  intro hle
  rw [upsert_countP_key]
  unfold Nat.max
  rw [Nat.max_def]
  split <;> omega

/-- Witness for C3 (amended): upserting `"lake"` on a single-row prior
relation leaves exactly one row for the image. -/
theorem landmark_upsert_amended_witness :
    (upsert_landmark [("img1.png", some "old")] "img1.png" "lake").countP
        (fun r => decide (r.1 = "img1.png")) = 1
    ∧ ∀ r ∈ upsert_landmark [("img1.png", some "old")] "img1.png" "lake",
        r.1 = "img1.png" → r.2 = some "lake" :=
  ⟨(landmark_upsert_amended [("img1.png", some "old")] "img1.png" "lake").1
      (by decide),
   (landmark_upsert_amended [("img1.png", some "old")] "img1.png" "lake").2.1⟩

theorem sortedStr_sorted (l : List String) : (sortedStr l).Sorted (· ≤ ·) :=
  (List.sorted_insertionSort strLeP l).imp (fun h => (strLeP_iff_le _ _).mp h)

theorem sortedStr_perm (l : List String) : (sortedStr l).Perm l :=
  List.perm_insertionSort strLeP l

theorem mem_sortedStr {l : List String} {x : String} :
    x ∈ sortedStr l ↔ x ∈ l :=
  List.mem_insertionSort strLeP

/-- Membership characterization of `apply_filters`: an image is kept iff it
is a valid image whose caption count lies in the closed range and whose
landmark passes the filter. -/
theorem mem_apply_filters (valid : List String) (caps : String → List String)
    (lands : String → String) (mn mx : Nat) (lmf img : String) :
    img ∈ apply_filters valid caps lands mn mx lmf ↔
      img ∈ valid ∧ mn ≤ (caps img).length ∧ (caps img).length ≤ mx ∧
        (lmf = "Any" ∨ lands img = lmf) := by
  rw [apply_filters, List.mem_filter]
  simp only [Bool.and_eq_true, Bool.not_eq_true', Bool.or_eq_false_iff,
    Bool.and_eq_false_iff, decide_eq_false_iff_not, not_lt, not_not,
    and_assoc]

/-- Claim C6: `apply_filters` keeps an image iff its caption count lies in
`[cap_min, cap_max]` and the landmark filter is `"Any"` or equals its
landmark; the result is an order-preserving subsequence of the valid
images, and with `cap_min = cap_max = 0` and filter `"Any"` it returns
exactly the images with zero captions, in their original relative order. -/
theorem apply_filters_spec (valid : List String) (caps : String → List String)
    (lands : String → String) (mn mx : Nat) (lmf : String) :
    (∀ img, img ∈ apply_filters valid caps lands mn mx lmf ↔
        img ∈ valid ∧ mn ≤ (caps img).length ∧ (caps img).length ≤ mx ∧
          (lmf = "Any" ∨ lands img = lmf))
    ∧ (apply_filters valid caps lands mn mx lmf).Sublist valid
    ∧ apply_filters valid caps lands 0 0 "Any"
        = valid.filter (fun img => decide ((caps img).length = 0)) := by
  refine ⟨fun img => mem_apply_filters valid caps lands mn mx lmf img,
    List.filter_sublist _, ?_⟩
  rw [apply_filters]
  refine List.filter_congr ?_
  intro img _
  have hAny : (decide (("Any" : String) ≠ "Any")) = false := by decide
  cases h : (caps img).length <;> simp [hAny]

/-- Claim C7: the caption-count options form the dense range from `0` to the
maximum caption count over the valid images (`[0]` when there are none),
and the landmark options are `"Any"` followed by the sorted distinct
non-empty landmark values of the valid images (`["Any"]` when there are
none). -/
theorem build_filters_spec (valid : List String) (caps : String → List String)
    (lands : String → String) :
    (∀ n, n ∈ (build_filters valid caps lands).1 ↔ n ≤ maxCapCount valid caps)
    ∧ 0 ∈ (build_filters valid caps lands).1
    ∧ (∀ img ∈ valid, (caps img).length ≤ maxCapCount valid caps)
    ∧ (valid ≠ [] → ∃ img ∈ valid, (caps img).length = maxCapCount valid caps)
    ∧ (valid = [] → (build_filters valid caps lands).1 = [0]
        ∧ (build_filters valid caps lands).2 = ["Any"])
    ∧ (build_filters valid caps lands).2.head? = some "Any"
    ∧ (build_filters valid caps lands).2.tail.Sorted (· ≤ ·)
    ∧ (build_filters valid caps lands).2.tail.Nodup
    ∧ (∀ s, s ∈ (build_filters valid caps lands).2.tail ↔
        s ≠ "" ∧ ∃ img ∈ valid, lands img = s) := by
  refine ⟨?_, ?_, ?_, ?_, ?_, rfl, ?_, ?_, ?_⟩
  · intro n
    rw [build_filters]
    simp [List.mem_range, Nat.lt_succ_iff]
  · rw [build_filters]
    simp [List.mem_range]
  · intro img hmem
    exact le_foldl_max _ 0 _ (List.mem_map_of_mem _ hmem)
  · intro hne
    have hmap : valid.map (fun img => (caps img).length) ≠ [] := by
      simpa using hne
    have hmem := foldl_max_zero_mem _ hmap
    rcases List.mem_map.mp hmem with ⟨img, himg, heq⟩
    exact ⟨img, himg, heq⟩
  · rintro rfl
    simp [build_filters, maxCapCount, List.range_succ, sortedStr,
      List.dedup_nil]
  · exact sortedStr_sorted _
  · exact (sortedStr_perm _).nodup_iff.mpr (List.nodup_dedup _)
  · intro s
    show s ∈ sortedStr _ ↔ _
    rw [mem_sortedStr, List.mem_dedup, List.mem_filter]
    simp only [List.mem_map, Bool.not_eq_true', decide_eq_false_iff_not,
      not_not, decide_eq_true_eq]
    constructor
    · rintro ⟨⟨img, himg, rfl⟩, hne⟩
      exact ⟨hne, img, himg, rfl⟩
    · rintro ⟨hne, img, himg, rfl⟩
      exact ⟨⟨img, himg, rfl⟩, hne⟩

/-- Witness for C7 on a concrete valid set: the bound conjuncts at
explicit images, the attained maximum, and the option lists. -/
theorem build_filters_spec_witness :
    (("a.png" : String) ∈ ["a.png", "b.png"] →
      ((fun img => if img = "a.png" then ["c1", "c2"] else ([] : List String))
          "a.png").length ≤
        maxCapCount ["a.png", "b.png"]
          (fun img => if img = "a.png" then ["c1", "c2"] else []))
    ∧ (∃ img ∈ ["a.png", "b.png"],
        ((fun img => if img = "a.png" then ["c1", "c2"] else ([] : List String))
            img).length =
          maxCapCount ["a.png", "b.png"]
            (fun img => if img = "a.png" then ["c1", "c2"] else [])) :=
  ⟨(build_filters_spec ["a.png", "b.png"]
        (fun img => if img = "a.png" then ["c1", "c2"] else [])
        (fun _ => "")).2.2.1 "a.png",
   (build_filters_spec ["a.png", "b.png"]
        (fun img => if img = "a.png" then ["c1", "c2"] else [])
        (fun _ => "")).2.2.2.1 (by decide)⟩

/-- Claim C10: `captions_map` keeps a row whose caption cell is missing or
blank, converting the cell to `""`, so every row for an image counts toward
its caption count; consequently the zero-caption filter
(`cap_min = cap_max = 0`, landmark `"Any"`) keeps exactly the valid images
with no caption row at all — an image whose only caption row is blank is
excluded. -/
theorem blank_caption_rows_spec (t : Table) (valid : List String)
    (lands : String → String) (img : String) :
    ((captions_map t img).length = t.countP (fun r => decide (r.1 = img)))
    ∧ (img ∈ apply_filters valid (captions_map t) lands 0 0 "Any" ↔
        img ∈ valid ∧ t.countP (fun r => decide (r.1 = img)) = 0)
    ∧ captions_map [("img1.png", (none : Cell))] "img1.png" = [""] := by
  have hlen : (captions_map t img).length =
      t.countP (fun r => decide (r.1 = img)) := by
    rw [captions_map, List.length_map, ← List.countP_eq_length_filter]
  refine ⟨hlen, ?_, by decide⟩
  rw [mem_apply_filters]
  simp [hlen, Nat.le_zero]

/-- Claim C9: both write paths persist the stripped text, not the input
text: after a landmark save, every row for the image holds the stripped
text (so a whitespace-only landmark stores an empty-text row, which the
save still creates), while a caption whose stripped text is empty is
rejected — the relation is unchanged — and otherwise the stripped text is
appended. -/
theorem strip_before_persist_spec (t : Table) (img text : String) :
    (∀ r ∈ save_landmark_action t img text,
        r.1 = img → r.2 = some (pyStrip text))
    ∧ (∃ r ∈ save_landmark_action t img text, r.1 = img)
    ∧ (pyStrip text ≠ "" →
        add_caption_action t img text = t ++ [(img, some (pyStrip text))])
    ∧ (pyStrip text = "" → add_caption_action t img text = t) := by
  refine ⟨upsert_key_val t img (pyStrip text),
    upsert_exists_key t img (pyStrip text), ?_, ?_⟩
  · intro h
    rw [add_caption_action, if_pos h]
    rfl
  · intro h
    rw [add_caption_action, if_neg (fun hn => hn h)]

/-- Witness for C9: adding the caption `"  hi  "` stores `"hi"`, and saving
a whitespace-only landmark still stores a row for the image. -/
theorem strip_before_persist_spec_witness :
    add_caption_action [] "img1.png" "  hi  " = [("img1.png", some "hi")]
    ∧ ∃ r ∈ save_landmark_action [] "img1.png" "   ", r.1 = "img1.png" :=
  ⟨by
    rw [(strip_before_persist_spec [] "img1.png" "  hi  ").2.2.1 (by decide)]
    decide,
   (strip_before_persist_spec [] "img1.png" "   ").2.1⟩

theorem renameFrom_length (sn : String) :
    ∀ (fs : List String) (n : Nat), (renameFrom sn n fs).length = fs.length := by
  intro fs
  induction fs with
  | nil => intro n; rfl
  | cons f fs ih => intro n; simp [renameFrom, ih (n + 1)]

theorem renameFrom_getElem (sn : String) :
    ∀ (fs : List String) (n k : Nat),
      (renameFrom sn n fs)[k]? = fs[k]?.map
        (fun f => (f, "image_" ++ sn ++ "_" ++ toString (n + k) ++ extname f)) := by
  intro fs
  induction fs with
  | nil => intro n k; simp [renameFrom]
  | cons f fs ih =>
    intro n k
    cases k with
    | zero => simp [renameFrom]
    | succ k =>
      rw [renameFrom]
      simp only [List.getElem?_cons_succ]
      rw [ih (n + 1) k]
      have harith : n + 1 + k = n + (k + 1) := by omega
      rw [harith]

/-- Claim C1: the rename mapping pairs the invalid files, in input order,
with canonical names carrying consecutive serials starting at
`highest_serial valid + 1` and the original extension appended verbatim;
`highest_serial` is the maximum extracted serial (`0` when no valid image
yields one, so the first assigned serial is `1`); an empty invalid list
yields an empty mapping; and the spec's example allocates serials `4` then
`5`. -/
theorem rename_allocation_spec (sn : String) (valid invalid : List String) :
    ((rename_invalids_to_valid sn valid invalid).length = invalid.length)
    ∧ (∀ k, (rename_invalids_to_valid sn valid invalid)[k]? =
        invalid[k]?.map (fun f => (f, "image_" ++ sn ++ "_" ++
          toString (highest_serial valid + 1 + k) ++ extname f)))
    ∧ (valid.filterMap serialOf = [] → highest_serial valid = 0)
    ∧ (∀ s ∈ valid.filterMap serialOf, s ≤ highest_serial valid)
    ∧ (valid.filterMap serialOf ≠ [] →
        highest_serial valid ∈ valid.filterMap serialOf)
    ∧ (invalid = [] → rename_invalids_to_valid sn valid invalid = [])
    ∧ (rename_invalids_to_valid "a" ["image_a_3.png", "image_a_1.png"]
        ["photo.jpg", "x.png"]
        = [("photo.jpg", "image_a_4.jpg"), ("x.png", "image_a_5.png")]) := by
  refine ⟨renameFrom_length sn invalid (highest_serial valid + 1),
    renameFrom_getElem sn invalid (highest_serial valid + 1), ?_,
    le_foldl_max (valid.filterMap serialOf) 0, ?_, ?_, by decide⟩
  · intro h
    rw [highest_serial, h]
    rfl
  · intro h
    exact foldl_max_zero_mem _ h
  · rintro rfl
    rfl

/-- Witness for C1: on the spec's example the maximum serial `3` is an
extracted serial of the valid images, and an empty invalid list gives an
empty mapping. -/
theorem rename_allocation_spec_witness :
    highest_serial ["image_a_3.png", "image_a_1.png"]
        ∈ ["image_a_3.png", "image_a_1.png"].filterMap serialOf
    ∧ rename_invalids_to_valid "a" ["image_a_3.png", "image_a_1.png"] [] = [] :=
  ⟨(rename_allocation_spec "a" ["image_a_3.png", "image_a_1.png"]
        ["photo.jpg", "x.png"]).2.2.2.2.1 (by decide),
   (rename_allocation_spec "a" ["image_a_3.png", "image_a_1.png"]
        []).2.2.2.2.2.1 rfl⟩

/-- Claim C4: `validate_images` is a strict partition of the listing: the
valid and invalid lists are disjoint, their union is the full listing,
the listing is the extension-filtered directory in lexicographic sort
order, and both parts preserve that order (they are subsequences of the
listing). -/
theorem validate_partition_spec (folder : List String) (sn : String) :
    (∀ f, f ∈ (validate_images folder sn).2.2 ↔
        f ∈ (validate_images folder sn).1 ∨ f ∈ (validate_images folder sn).2.1)
    ∧ (∀ f, f ∈ (validate_images folder sn).1 →
        f ∉ (validate_images folder sn).2.1)
    ∧ (validate_images folder sn).2.2.Sorted (· ≤ ·)
    ∧ (validate_images folder sn).2.2.Perm (folder.filter hasImageExt)
    ∧ (validate_images folder sn).1.Sublist (validate_images folder sn).2.2
    ∧ (validate_images folder sn).2.1.Sublist (validate_images folder sn).2.2 := by
  have hv : (validate_images folder sn).1 =
      (list_images folder).filter (pyMatch sn) := by
    simp [validate_images, List.partition_eq_filter_filter]
  have hiv : (validate_images folder sn).2.1 =
      (list_images folder).filter (not ∘ pyMatch sn) := by
    simp [validate_images, List.partition_eq_filter_filter]
  have hall : (validate_images folder sn).2.2 = list_images folder := rfl
  refine ⟨?_, ?_, ?_, ?_, ?_, ?_⟩
  · intro f
    rw [hall, hv, hiv]
    cases hp : pyMatch sn f <;> simp [List.mem_filter, hp, Function.comp]
  · intro f hfv hfiv
    rw [hv] at hfv
    rw [hiv] at hfiv
    have h1 := (List.mem_filter.mp hfv).2
    have h2 := (List.mem_filter.mp hfiv).2
    rw [Function.comp_apply, h1] at h2
    exact absurd h2 (by decide)
  · rw [hall, list_images]
    exact sortedStr_sorted _
  · rw [hall, list_images]
    exact sortedStr_perm _
  · rw [hv, hall]
    exact List.filter_sublist _
  · rw [hiv, hall]
    exact List.filter_sublist _

/-- Witness for C4: in a concrete folder the canonical image is not listed
among the invalid images. -/
theorem validate_partition_spec_witness :
    "image_a_2.png" ∉
      (validate_images ["photo.jpg", "image_a_2.png", "notes.txt"] "a").2.1 :=
  (validate_partition_spec ["photo.jpg", "image_a_2.png", "notes.txt"] "a").2.1
    "image_a_2.png" (by decide)

theorem matchTail_iff (r : List Char) :
    matchTail r = true ↔
      ∃ d e : List Char, r = d ++ '.' :: e ∧ d ≠ [] ∧
        (∀ c ∈ d, c.isDigit = true) ∧ e ≠ [] ∧
        (∀ c ∈ e, c.isAlphanum = true) := by
  constructor
  · intro hb
    rw [matchTail] at hb
    simp only [Bool.and_eq_true, Bool.not_eq_true', decide_eq_true_eq,
      List.all_eq_true] at hb
    obtain ⟨⟨⟨hd, hhead⟩, htl⟩, haln⟩ := hb
    have hrest : r.dropWhile Char.isDigit = '.' :: (r.dropWhile Char.isDigit).tail := by
      cases hcase : r.dropWhile Char.isDigit with
      | nil => rw [hcase] at hhead; simp at hhead
      | cons x xs =>
        rw [hcase] at hhead
        simp at hhead
        rw [hhead]
        rfl
    refine ⟨r.takeWhile Char.isDigit, (r.dropWhile Char.isDigit).tail, ?_, ?_,
      fun c hc => List.mem_takeWhile_imp hc, ?_, haln⟩
    · conv_lhs => rw [← List.takeWhile_append_dropWhile Char.isDigit r, hrest]
    · intro hnil
      rw [hnil] at hd
      exact absurd hd (by decide)
    · intro hnil
      rw [hnil] at htl
      exact absurd htl (by decide)
  · rintro ⟨d, e, rfl, hd, hdig, he, haln⟩
    obtain ⟨ht, hdw⟩ := takeWhile_append_front Char.isDigit d '.' e hdig (by decide)
    have hdE : d.isEmpty = false := by
      cases d with
      | nil => exact absurd rfl hd
      | cons x xs => rfl
    have heE : e.isEmpty = false := by
      cases e with
      | nil => exact absurd rfl he
      | cons x xs => rfl
    rw [matchTail]
    simp only [ht, hdw, List.head?_cons, List.tail_cons]
    simp [hdE, heE, List.all_eq_true]
    exact haln

theorem matchCore_iff (sn : String) (cs : List Char) :
    matchCore sn cs = true ↔
      ∃ d e : List Char,
        cs = "image_".data ++ sn.data ++ "_".data ++ d ++ '.' :: e ∧
        d ≠ [] ∧ (∀ c ∈ d, c.isDigit = true) ∧
        e ≠ [] ∧ (∀ c ∈ e, c.isAlphanum = true) := by
  cases hdl : dropLit ("image_".data ++ sn.data ++ "_".data) cs with
  | none =>
    rw [matchCore, hdl]
    simp only [Bool.false_eq_true, false_iff]
    rintro ⟨d, e, heq, -⟩
    have hsome : dropLit ("image_".data ++ sn.data ++ "_".data) cs
        = some (d ++ '.' :: e) := by
      refine (dropLit_eq_some_iff _ cs _).mpr ?_
      rw [heq, List.append_assoc ("image_".data ++ sn.data ++ "_".data) d]
    rw [hdl] at hsome
    exact absurd hsome (by simp)
  | some r =>
    have hcs : cs = ("image_".data ++ sn.data ++ "_".data) ++ r :=
      (dropLit_eq_some_iff _ cs r).mp hdl
    subst hcs
    rw [matchCore, hdl, matchTail_iff]
    constructor
    · rintro ⟨d, e, rfl, hd, hdig, he, haln⟩
      exact ⟨d, e, by simp [List.append_assoc], hd, hdig, he, haln⟩
    · rintro ⟨d, e, heq, hd, hdig, he, haln⟩
      have h2 : ("image_".data ++ sn.data ++ "_".data) ++ r =
          ("image_".data ++ sn.data ++ "_".data) ++ (d ++ '.' :: e) :=
        heq.trans (List.append_assoc _ _ _)
      have hr : r = d ++ '.' :: e := List.append_cancel_left h2
      subst hr
      exact ⟨d, e, rfl, hd, hdig, he, haln⟩

theorem lowerLast_of_imageExt (f : String) (h : hasImageExt f = true) :
    ∃ c, (f.data.map Char.toLower).getLast? = some c ∧
      (c = 'g' ∨ c = 'p' ∨ c = 'f') := by
  rw [hasImageExt, List.any_eq_true] at h
  obtain ⟨e, he, hsuf⟩ := h
  obtain ⟨w, hw⟩ := List.isSuffixOf_iff_suffix.mp hsuf
  simp only [IMG_EXTS, List.mem_cons, List.not_mem_nil, or_false] at he
  rcases he with rfl | rfl | rfl | rfl | rfl | rfl
  · exact ⟨'g', by rw [← hw, List.getLast?_append]; rfl, Or.inl rfl⟩
  · exact ⟨'g', by rw [← hw, List.getLast?_append]; rfl, Or.inl rfl⟩
  · exact ⟨'g', by rw [← hw, List.getLast?_append]; rfl, Or.inl rfl⟩
  · exact ⟨'p', by rw [← hw, List.getLast?_append]; rfl, Or.inr (Or.inl rfl)⟩
  · exact ⟨'f', by rw [← hw, List.getLast?_append]; rfl, Or.inr (Or.inr rfl)⟩
  · exact ⟨'f', by rw [← hw, List.getLast?_append]; rfl, Or.inr (Or.inr rfl)⟩

theorem getLast_ne_newline (f : String) (h : hasImageExt f = true) :
    f.data.getLast? ≠ some '\n' := by
  obtain ⟨c, hc, hcc⟩ := lowerLast_of_imageExt f h
  intro hlast
  rw [List.getLast?_map, hlast] at hc
  have hcn : Char.toLower '\n' = c := by simpa using hc
  rcases hcc with rfl | rfl | rfl <;> exact absurd hcn (by decide)

theorem pyMatch_of_imageExt (sn f : String) (h : hasImageExt f = true) :
    pyMatch sn f = matchCore sn f.data := by
  rw [pyMatch, decide_eq_false (getLast_ne_newline f h)]
  simp

/-- Claim C5: for every file in the directory listing (the classifier's
domain), the file is classified valid iff its name is exactly
`image_<shortname>_<digits>.<ext>` with a non-empty decimal digit group and
a non-empty alphanumeric extension token -- the shortname is matched
literally and no partial match or extra suffix is accepted. -/
theorem classifier_pattern_spec (folder : List String) (sn f : String)
    (h : f ∈ list_images folder) :
    (f ∈ (validate_images folder sn).1) ↔ canonicalName sn f := by
  have hext : hasImageExt f = true := by
    rw [list_images] at h
    exact (List.mem_filter.mp (mem_sortedStr.mp h)).2
  have hv : (validate_images folder sn).1 =
      (list_images folder).filter (pyMatch sn) := by
    simp [validate_images, List.partition_eq_filter_filter]
  rw [hv, List.mem_filter, pyMatch_of_imageExt sn f hext, matchCore_iff]
  rw [canonicalName]
  exact and_iff_right h

/-- Witness for C5: the canonical file of a concrete listing is classified
valid exactly when it has the canonical shape. -/
theorem classifier_pattern_spec_witness :
    ("image_a_1.png" ∈ (validate_images ["photo.jpg", "image_a_1.png"] "a").1)
      ↔ canonicalName "a" "image_a_1.png" :=
  classifier_pattern_spec ["photo.jpg", "image_a_1.png"] "a" "image_a_1.png"
    (by decide)

/-! ### Executable checks of the embedding on concrete inputs

Each equation below reproduces the observable behaviour of the
corresponding Python function on the same input. -/

example : pyMatch "a" "image_a_12.png" = true := by decide
example : pyMatch "a" "image_a_12.png\n" = true := by decide
example : pyMatch "a" "image_a_.png" = false := by decide
example : pyMatch "a" "ximage_a_1.png" = false := by decide
example : serialOf "image_a_3.png" = some 3 := by decide
example : serialOf "photo.jpg" = none := by decide
example : extname "photo.jpg" = ".jpg" := by decide
example : extname ".bashrc" = "" := by decide
example : extname "photo" = "" := by decide
example : rename_invalids_to_valid "a" ["image_a_3.png", "image_a_1.png"]
    ["photo.jpg", "x.png"]
    = [("photo.jpg", "image_a_4.jpg"), ("x.png", "image_a_5.png")] := by decide
example : list_images ["photo.jpg", "notes.txt", "image_a_1.PNG"]
    = ["image_a_1.PNG", "photo.jpg"] := by decide
example : pyStrip "\x0b" = "" := by decide
example : pyStrip "\u00A0" = "" := by decide
example : pyStrip " \t hi \x0c" = "hi" := by decide
example : add_caption_action [] "img1.png" "\x0b" = [] := by decide
example : save_landmark_action [] "img1.png" "\u00A0"
    = [("img1.png", some "")] := by decide
